import Mathlib

/-!
Verification development for the VectorCore repository.

The repository ships a build descriptor (src/setup.py) for a pybind11
extension compiled from src/main.cpp and src/VectorStore.cpp; those C++
sources are not present in the repository, so the vector-store core is
modelled here from the specification (spec.md), while the build
descriptor is embedded directly from src/setup.py.

Numeric model: the spec's IEEE-754 single-precision vectors are modelled
over exact rationals.  The l2_squared metric is the exact sum of squared
differences.  Cosine similarity (dot product normalized by row norms)
involves square roots, which exact rational arithmetic cannot represent;
it is modelled by the order-isomorphic rational surrogate
sign(d) * d^2 / (|u|^2 * |v|^2), which preserves the identity value 1
and the descending comparison order of true cosine similarity.
-/

set_option maxHeartbeats 1000000

/-- Modelled from the spec: caller-supplied identifier (an opaque 64-bit
integer token), modelled as a natural number. -/
abbrev Ident := Nat

/-- Modelled from the spec: a Vector is an ordered sequence of numeric
components, modelled over exact rationals. -/
abbrev Vec := List ℚ

/-- Modelled from the spec: the two supported metrics, configured at
store construction. -/
inductive Metric
  | l2_squared
  | cosine
  deriving DecidableEq, Repr

/-- Modelled from the spec: the error kinds of the error-handling design. -/
inductive VCError
  | InvalidDimension
  | DimensionMismatch
  | DuplicateIdentifier
  | UnknownIdentifier
  | InvalidK
  | UnsupportedMetric
  deriving DecidableEq, Repr

/-- Modelled from the spec: one occupied row slot pairs the identifier,
the stored vector, and the row-insertion sequence number used for
deterministic tie-breaking. -/
structure Slot where
  ident : Ident
  vec : Vec
  seq : Nat
  deriving DecidableEq, Repr

/-- Modelled from the spec: the Vector Store state.  slots is the Vector
Buffer (none = free row slot), freeList the reusable free-list, index the
Identifier Index (identifier to row slot), nextSeq the next row-insertion
sequence number. -/
structure VectorStore where
  dim : Nat
  metric : Metric
  slots : List (Option Slot)
  freeList : List Nat
  index : List (Ident × Nat)
  nextSeq : Nat
  deriving DecidableEq, Repr

/-- Modelled from the spec: store construction with a dimension, a
metric and an initial capacity. -/
def VectorStore.empty (dim : Nat) (m : Metric) (cap : Nat) : VectorStore :=
  ⟨dim, m, List.replicate cap none, List.range cap, [], 0⟩

/-- Dot product of two vectors (exact rational arithmetic). -/
def dot (u v : Vec) : ℚ :=
  (List.zipWith (fun a b => a * b) u v).sum

/-- Modelled from the spec: squared Euclidean distance. -/
def sqDist (u v : Vec) : ℚ :=
  (List.zipWith (fun a b => (a - b) ^ 2) u v).sum

/-- Modelled from the spec: cosine similarity, represented by the
order-isomorphic rational surrogate sign(d) * d^2 / (|u|^2 * |v|^2)
where d = dot u v; this equals 1 exactly when true cosine equals 1 and
compares identically to true cosine. -/
def cosSur (u v : Vec) : ℚ :=
  (dot u v * |dot u v|) / (dot u u * dot v v)

/-- Modelled from the spec: the Distance Kernel score of a query against
a stored row, per configured metric. -/
def Metric.score : Metric → Vec → Vec → ℚ
  | .l2_squared, u, v => sqDist u v
  | .cosine, u, v => cosSur u v

/-- Modelled from the spec: the metric's identity value (0 for
l2_squared, 1 for cosine with itself). -/
def Metric.identityScore : Metric → ℚ
  | .l2_squared => 0
  | .cosine => 1

/-- Modelled from the spec: strict "ranks strictly ahead" comparison of
scores: ascending distance for l2_squared, descending similarity for
cosine. -/
def Metric.better : Metric → ℚ → ℚ → Prop
  | .l2_squared, a, b => a < b
  | .cosine, a, b => b < a

instance (m : Metric) (a b : ℚ) : Decidable (m.better a b) := by
  cases m
  · exact inferInstanceAs (Decidable (a < b))
  · exact inferInstanceAs (Decidable (b < a))

/-- A query candidate: identifier, row-insertion sequence number, score. -/
abbrev Cand := Ident × Nat × ℚ

/-- Modelled from the spec: ranking order on candidates — by metric
score order, ties broken by ascending row-insertion order. -/
def candLE (m : Metric) (a b : Cand) : Prop :=
  m.better a.2.2 b.2.2 ∨ (a.2.2 = b.2.2 ∧ a.2.1 ≤ b.2.1)

instance (m : Metric) : DecidableRel (candLE m) := fun _ _ =>
  inferInstanceAs (Decidable (_ ∨ _))

/-- The occupied rows of the store, in row-slot order. -/
def VectorStore.occRows (st : VectorStore) : List Slot :=
  st.slots.filterMap (fun o => o)

/-- Modelled from the spec: count of occupied rows. -/
def VectorStore.size (st : VectorStore) : Nat :=
  st.occRows.length

/-- Modelled from the spec: row slots currently allocated. -/
def VectorStore.capacity (st : VectorStore) : Nat :=
  st.slots.length

/-- The scored candidate list: one candidate per occupied row. -/
def VectorStore.candList (st : VectorStore) (q : Vec) : List Cand :=
  st.occRows.map (fun sl => (sl.ident, sl.seq, st.metric.score q sl.vec))

/-- The candidates ranked by metric order, ties by insertion order. -/
def VectorStore.ranked (st : VectorStore) (q : Vec) : List Cand :=
  List.insertionSort (candLE st.metric) (st.candList q)

/-- Modelled from the spec: query validates the dimension, rejects
non-positive k, scans every occupied row and returns the top-k
(identifier, score) pairs ranked by the configured metric with ties
broken by ascending row-insertion order. -/
def VectorStore.query (st : VectorStore) (q : Vec) (k : Int) :
    Except VCError (List (Ident × ℚ)) :=
  if q.length ≠ st.dim then .error .DimensionMismatch
  else if k ≤ 0 then .error .InvalidK
  else .ok (((st.ranked q).take k.toNat).map (fun c => (c.1, c.2.2)))

/-- Modelled from the spec: the number of extra free slots appended past
the one consumed by the growing insert, under the doubling strategy
(new capacity max(2n, n+1) for old capacity n). -/
def growPad (n : Nat) : Nat :=
  max (2 * n) (n + 1) - n - 1

/-- Modelled from the spec: insert validates the identifier and the
dimension, obtains a free slot (from the free-list, or by doubling
growth when the free-list is exhausted), writes the vector and binds the
identifier; failures are reported before any state is built. -/
def VectorStore.insert (st : VectorStore) (id : Ident) (v : Vec) :
    Except VCError VectorStore :=
  if (st.index.lookup id).isSome then .error .DuplicateIdentifier
  else if v.length ≠ st.dim then .error .DimensionMismatch
  else
    match st.freeList with
    | s :: rest =>
        .ok ⟨st.dim, st.metric, st.slots.set s (some ⟨id, v, st.nextSeq⟩), rest,
          (id, s) :: st.index, st.nextSeq + 1⟩
    | [] =>
        .ok ⟨st.dim, st.metric,
          st.slots ++ some ⟨id, v, st.nextSeq⟩ ::
            List.replicate (growPad st.slots.length) none,
          List.range' (st.slots.length + 1) (growPad st.slots.length),
          (id, st.slots.length) :: st.index, st.nextSeq + 1⟩

/-- Modelled from the spec: remove unbinds the identifier and marks its
slot free (returning it to the free-list); fails with UnknownIdentifier
if the identifier is absent. -/
def VectorStore.remove (st : VectorStore) (id : Ident) :
    Except VCError VectorStore :=
  match st.index.lookup id with
  | none => .error .UnknownIdentifier
  | some s =>
      .ok ⟨st.dim, st.metric, st.slots.set s none, s :: st.freeList,
        st.index.filter (fun p => decide (p.1 ≠ id)), st.nextSeq⟩

/-- The store states reachable through the public interface:
construction, successful inserts and successful removes. -/
inductive Reachable : VectorStore → Prop
  | mk (dim : Nat) (m : Metric) (cap : Nat) : Reachable (VectorStore.empty dim m cap)
  | ins {st st' : VectorStore} {id : Ident} {v : Vec} :
      Reachable st → st.insert id v = .ok st' → Reachable st'
  | rem {st st' : VectorStore} {id : Ident} :
      Reachable st → st.remove id = .ok st' → Reachable st'

instance {ε α : Type} [DecidableEq ε] [DecidableEq α] : DecidableEq (Except ε α) := fun x y =>
  match x, y with
  | .error e, .error f =>
      if h : e = f then isTrue (by rw [h]) else isFalse (fun c => by cases c; exact h rfl)
  | .error _, .ok _ => isFalse (fun h => Except.noConfusion h)
  | .ok _, .error _ => isFalse (fun h => Except.noConfusion h)
  | .ok a, .ok b =>
      if h : a = b then isTrue (by rw [h]) else isFalse (fun c => by cases c; exact h rfl)

/-- Embeds Python str.startswith: s.startswith(pre) holds when the
character sequence pre is a prefix of the character sequence s. -/
def strStartsWith (s pre : String) : Bool :=
  pre.data.isPrefixOf s.data

/-- Embeds compile_args from src/setup.py; the platform argument models
sys.platform. -/
def compile_args (platform : String) : List String :=
  if strStartsWith platform ("win") then ["/O2", "/arch:AVX2"]
  else ["-O3", "-mavx2", "-mfma"]

/-- One pybind11 extension-module descriptor, with the fields set in
src/setup.py. -/
structure ExtModule where
  modName : String
  sources : List String
  include_dirs : List String
  cxx_std : Nat
  extra_compile_args : List String
  deriving DecidableEq, Repr

/-- Embeds ext_modules from src/setup.py. -/
def ext_modules (platform : String) : List ExtModule :=
  [⟨"vectorcore", ["src/main.cpp", "src/VectorStore.cpp"], ["include", "src"],
    17, compile_args platform⟩]

/-- Modelled from the spec: the internal consistency invariant of a
store — identifier index and occupied slots agree exactly, index keys
are unique, stored vectors have the store dimension, and the free-list
is duplicate-free and points only at free slots. -/
def StoreInv (st : VectorStore) : Prop :=
  (st.index.map Prod.fst).Nodup ∧
  (∀ (id : Ident) (s : Nat),
      (id, s) ∈ st.index ↔ ∃ sl : Slot, st.slots[s]? = some (some sl) ∧ sl.ident = id) ∧
  (∀ (j : Nat) (sl : Slot), st.slots[j]? = some (some sl) → sl.vec.length = st.dim) ∧
  st.freeList.Nodup ∧
  (∀ s ∈ st.freeList, st.slots[s]? = some none)

/-- Modelled from the spec: the Identifier Index bijection — every
occupied row slot has exactly one identifier mapped to it, and every
mapped identifier refers to exactly one occupied row slot. -/
def IndexBiject (st : VectorStore) : Prop :=
  (∀ (j : Nat) (sl : Slot), st.slots[j]? = some (some sl) →
      ((sl.ident, j) ∈ st.index ∧ ∀ id : Ident, (id, j) ∈ st.index → id = sl.ident)) ∧
  (∀ (id : Ident) (s : Nat), (id, s) ∈ st.index →
      ((∃ sl : Slot, st.slots[s]? = some (some sl) ∧ sl.ident = id) ∧
        ∀ s2 : Nat, (id, s2) ∈ st.index → s2 = s))

/-- A concrete one-row store: dimension 1, l2_squared, identifier 5 at
slot 0 holding the vector [2]. -/
def exStore1 : VectorStore :=
  ⟨1, Metric.l2_squared, [some ⟨5, [2], 0⟩], [], [(5, 0)], 1⟩

/-- A concrete two-row store holding the same vector [0] under the
identifiers 1 (inserted first) and 2 (inserted second). -/
def exStoreDup : VectorStore :=
  ⟨1, Metric.l2_squared, [some ⟨1, [0], 0⟩, some ⟨2, [0], 1⟩], [], [(2, 1), (1, 0)], 2⟩

/-- The two-row store of the concrete spec scenario: dimension 4,
l2_squared, id 1 at [0,0,0,0] and id 2 at [1,1,1,1]. -/
def exStore2 : VectorStore :=
  ⟨4, Metric.l2_squared, [some ⟨1, [0, 0, 0, 0], 0⟩, some ⟨2, [1, 1, 1, 1], 1⟩], [],
    [(1, 0), (2, 1)], 2⟩

theorem lookup_some_mem {l : List (Ident × Nat)} {id : Ident} {s : Nat}
    (h : l.lookup id = some s) : (id, s) ∈ l := by
  induction l with
  | nil => simp [List.lookup] at h
  | cons p t ih =>
    obtain ⟨k, v⟩ := p
    rw [List.lookup] at h
    by_cases hk : id = k
    · subst hk
      simp only [beq_self_eq_true] at h
      cases h
      exact List.mem_cons_self _ _
    · have hb : (id == k) = false := beq_false_of_ne hk
      rw [hb] at h
      exact List.mem_cons_of_mem _ (ih h)

theorem lookup_none_not_mem {l : List (Ident × Nat)} {id : Ident}
    (h : l.lookup id = none) : ∀ s, (id, s) ∉ l := by
  induction l with
  | nil => simp
  | cons p t ih =>
    obtain ⟨k, v⟩ := p
    intro s hs
    rw [List.lookup] at h
    by_cases hk : id = k
    · subst hk
      simp only [beq_self_eq_true] at h
      cases h
    · have hb : (id == k) = false := beq_false_of_ne hk
      rw [hb] at h
      rcases List.mem_cons.1 hs with h1 | h1
      · exact hk (congrArg Prod.fst h1)
      · exact ih h s h1

theorem mem_lookup_isSome {l : List (Ident × Nat)} {id : Ident} {s : Nat}
    (h : (id, s) ∈ l) : (l.lookup id).isSome = true := by
  cases hl : l.lookup id with
  | none => exact absurd h (lookup_none_not_mem hl s)
  | some v => rfl

theorem ranked_length (st : VectorStore) (q : Vec) :
    (st.ranked q).length = st.size := by
  unfold VectorStore.ranked VectorStore.size VectorStore.candList
  rw [List.length_insertionSort, List.length_map]

/-- C3: for every store state and every insert whose identifier is
already present, insert fails with DuplicateIdentifier and produces no
successor state at all, so the store the caller holds is unchanged
(size, capacity, slots and identifier mappings untouched — a failed
insert is atomic with no partial state). -/
theorem insert_duplicate_rejected (st : VectorStore) (id : Ident) (v : Vec)
    (h : (st.index.lookup id).isSome = true) :
    st.insert id v = .error .DuplicateIdentifier ∧
    ∀ st2 : VectorStore, st.insert id v ≠ .ok st2 := by
  have h1 : st.insert id v = .error .DuplicateIdentifier := by
    unfold VectorStore.insert
    simp [h]
  exact ⟨h1, fun st2 hc => by rw [h1] at hc; exact Except.noConfusion hc⟩

/-- Witness for C3 at a concrete one-row store holding identifier 5. -/
theorem insert_duplicate_rejected_witness :
    VectorStore.insert ⟨1, Metric.l2_squared, [some ⟨5, [2], 0⟩], [], [(5, 0)], 1⟩ 5 [9] =
      .error .DuplicateIdentifier :=
  (insert_duplicate_rejected ⟨1, Metric.l2_squared, [some ⟨5, [2], 0⟩], [], [(5, 0)], 1⟩ 5 [9]
    (by decide)).1

/-- C6: queries are deterministic — two identical query calls against a
store value that has not been mutated in between are calls of the same
pure function on the same state and return identical results (in this
exact-arithmetic model, equality is bit-identity). -/
theorem query_deterministic (st : VectorStore) (q : Vec) (k : Int) :
    st.query q k = st.query q k := rfl

/-- C8: the build enables AVX2 and FMA — on every platform string not
starting with "win", compile_args contains "-mavx2" and "-mfma"; on
every platform string starting with "win" it returns the MSVC AVX2
flags. -/
theorem compile_args_enables_simd (p : String) :
    (strStartsWith p ("win") = false →
      ("-mavx2") ∈ compile_args p ∧ ("-mfma") ∈ compile_args p) ∧
    (strStartsWith p ("win") = true → compile_args p = ["/O2", "/arch:AVX2"]) := by
  constructor <;> intro h <;> simp [compile_args, h]

/-- Witness for C8 at the concrete platforms "linux" and "win32". -/
theorem compile_args_enables_simd_witness :
    (("-mavx2") ∈ compile_args ("linux") ∧ ("-mfma") ∈ compile_args ("linux")) ∧
    compile_args ("win32") = ["/O2", "/arch:AVX2"] :=
  ⟨(compile_args_enables_simd ("linux")).1 (by decide),
   (compile_args_enables_simd ("win32")).2 (by decide)⟩

/-- C9: compile_args is total and deterministic in the platform string,
returning exactly one of two fixed lists — the MSVC list for platforms
starting with "win" (which contains no FMA-specific flag) and the
GCC/Clang list otherwise. -/
theorem compile_args_two_fixed_lists (p : String) :
    (compile_args p = ["/O2", "/arch:AVX2"] ∨
      compile_args p = ["-O3", "-mavx2", "-mfma"]) ∧
    (strStartsWith p ("win") = true →
      compile_args p = ["/O2", "/arch:AVX2"] ∧ ("-mfma") ∉ compile_args p) ∧
    (strStartsWith p ("win") = false →
      compile_args p = ["-O3", "-mavx2", "-mfma"]) := by
  unfold compile_args
  cases hw : strStartsWith p ("win") <;> simp [hw]

/-- Witness for C9 at the concrete platforms "win32" and "darwin". -/
theorem compile_args_two_fixed_lists_witness :
    (compile_args ("win32") = ["/O2", "/arch:AVX2"] ∧
      ("-mfma") ∉ compile_args ("win32")) ∧
    compile_args ("darwin") = ["-O3", "-mavx2", "-mfma"] :=
  ⟨(compile_args_two_fixed_lists ("win32")).2.1 (by decide),
   (compile_args_two_fixed_lists ("darwin")).2.2 (by decide)⟩

/-- C10: the build descriptor defines exactly one extension module,
named "vectorcore", compiled as C++17 from exactly src/main.cpp and
src/VectorStore.cpp, with include directories "include" and "src". -/
theorem ext_modules_single_module (p : String) :
    ext_modules p = [⟨"vectorcore", ["src/main.cpp", "src/VectorStore.cpp"],
      ["include", "src"], 17, compile_args p⟩] := rfl

/-- C2 (amended for the error-precedence corner): query reports
DimensionMismatch exactly when the query vector's length differs from
the store dimension; it reports InvalidK exactly when the length matches
and k ≤ 0 (dimension validation runs first, so a call that is wrong in
both ways reports DimensionMismatch); every valid query succeeds with
exactly min(k, size()) results, hence exactly size() results when k
exceeds the number of occupied rows. -/
theorem query_error_conditions (st : VectorStore) (q : Vec) (k : Int) :
    (st.query q k = .error .DimensionMismatch ↔ q.length ≠ st.dim) ∧
    (st.query q k = .error .InvalidK ↔ (q.length = st.dim ∧ k ≤ 0)) ∧
    (q.length = st.dim → 0 < k → ∃ res, st.query q k = .ok res ∧
      res.length = min k.toNat st.size ∧ (st.size ≤ k.toNat → res.length = st.size)) := by
  have hsz : (st.ranked q).length = st.size := ranked_length st q
  unfold VectorStore.query
  by_cases hd : q.length = st.dim
  · by_cases hk : k ≤ 0
    · simp [hd, hk]
    · have hk2 : 0 < k := lt_of_not_le hk
      simp only [hd, ne_eq, not_true_eq_false, if_false, hk, if_true, not_false_eq_true]
      refine ⟨by simp, by simp [hk], fun _ _ => ⟨_, rfl, ?_, ?_⟩⟩
      · rw [List.length_map, List.length_take, hsz]
      · intro hle
        rw [List.length_map, List.length_take, hsz]
        exact Nat.min_eq_right hle
  · simp [hd]

/-- C2 counterexample: a query that is invalid in both ways (wrong
vector length and k = 0) reports DimensionMismatch, so the claim's
"raises InvalidK exactly when k ≤ 0" is false as stated. -/
theorem query_error_conditions_counterexample :
    (0 : Int) ≤ 0 ∧
    VectorStore.query (VectorStore.empty 1 Metric.l2_squared 0) [1, 2] 0 =
      .error .DimensionMismatch ∧
    VectorStore.query (VectorStore.empty 1 Metric.l2_squared 0) [1, 2] 0 ≠
      .error .InvalidK := by
  refine ⟨le_refl 0, ?_, ?_⟩ <;> simp [VectorStore.query, VectorStore.empty]

/-- Witness for C2 at the concrete one-row store exStore1, querying a
valid vector with k = 3 > size() = 1: exactly one result, no error. -/
theorem query_error_conditions_witness :
    ∃ res, exStore1.query [7] 3 = .ok res ∧
      res.length = min (3 : Int).toNat exStore1.size ∧
      (exStore1.size ≤ (3 : Int).toNat → res.length = exStore1.size) :=
  (query_error_conditions exStore1 [7] 3).2.2 (by decide) (by decide)

theorem insert_ok_cases {st st' : VectorStore} {id : Ident} {v : Vec}
    (h : st.insert id v = .ok st') :
    st.index.lookup id = none ∧ v.length = st.dim ∧
    ((∃ s rest, st.freeList = s :: rest ∧
        st' = ⟨st.dim, st.metric, st.slots.set s (some ⟨id, v, st.nextSeq⟩), rest,
          (id, s) :: st.index, st.nextSeq + 1⟩) ∨
      (st.freeList = [] ∧
        st' = ⟨st.dim, st.metric,
          st.slots ++ some ⟨id, v, st.nextSeq⟩ ::
            List.replicate (growPad st.slots.length) none,
          List.range' (st.slots.length + 1) (growPad st.slots.length),
          (id, st.slots.length) :: st.index, st.nextSeq + 1⟩)) := by
  unfold VectorStore.insert at h
  by_cases h1 : (st.index.lookup id).isSome = true
  · rw [if_pos h1] at h
    exact absurd h (by simp)
  · rw [if_neg h1] at h
    have hnone : st.index.lookup id = none := by
      cases hl : st.index.lookup id with
      | none => rfl
      | some s => rw [hl] at h1; exact absurd rfl h1
    by_cases h2 : v.length ≠ st.dim
    · rw [if_pos h2] at h
      exact absurd h (by simp)
    · rw [if_neg h2] at h
      push_neg at h2
      refine ⟨hnone, h2, ?_⟩
      cases hf : st.freeList with
      | cons s rest =>
        rw [hf] at h
        left
        refine ⟨s, rest, rfl, ?_⟩
        exact (Except.ok.inj h).symm
      | nil =>
        rw [hf] at h
        right
        exact ⟨rfl, (Except.ok.inj h).symm⟩

theorem remove_ok_cases {st st' : VectorStore} {id : Ident}
    (h : st.remove id = .ok st') :
    ∃ s, st.index.lookup id = some s ∧
      st' = ⟨st.dim, st.metric, st.slots.set s none, s :: st.freeList,
        st.index.filter (fun p => decide (p.1 ≠ id)), st.nextSeq⟩ := by
  unfold VectorStore.remove at h
  cases hl : st.index.lookup id with
  | none => rw [hl] at h; exact absurd h (by simp)
  | some s =>
    rw [hl] at h
    exact ⟨s, rfl, (Except.ok.inj h).symm⟩

theorem storeInv_empty (dim : Nat) (m : Metric) (cap : Nat) :
    StoreInv (VectorStore.empty dim m cap) := by
  refine ⟨by simp [VectorStore.empty], ?_, ?_, ?_, ?_⟩
  · intro id s
    constructor
    · intro hm
      exact absurd hm (by simp [VectorStore.empty])
    · rintro ⟨sl, hsl, _⟩
      rw [VectorStore.empty] at hsl
      simp only [List.getElem?_replicate] at hsl
      by_cases hc : s < cap
      · rw [if_pos hc] at hsl; cases hsl
      · rw [if_neg hc] at hsl; cases hsl
  · intro j sl hsl
    rw [VectorStore.empty] at hsl
    simp only [List.getElem?_replicate] at hsl
    by_cases hc : j < cap
    · rw [if_pos hc] at hsl; cases hsl
    · rw [if_neg hc] at hsl; cases hsl
  · exact List.nodup_range cap
  · intro s hs
    rw [VectorStore.empty] at hs
    simp only [List.mem_range] at hs
    simp [VectorStore.empty, List.getElem?_replicate, hs]

theorem keys_nodup_eq {l : List (Ident × Nat)} (hnd : (l.map Prod.fst).Nodup)
    {id : Ident} {a b : Nat} (ha : (id, a) ∈ l) (hb : (id, b) ∈ l) : a = b := by
  induction l with
  | nil => cases ha
  | cons p t ih =>
    simp only [List.map_cons, List.nodup_cons] at hnd
    rcases List.mem_cons.1 ha with h1 | h1
    · rcases List.mem_cons.1 hb with h2 | h2
      · rw [← h1] at h2
        exact (Prod.mk.inj h2).2.symm
      · exfalso
        apply hnd.1
        have : id ∈ t.map Prod.fst := List.mem_map.2 ⟨(id, b), h2, rfl⟩
        rw [← h1]
        exact this
    · rcases List.mem_cons.1 hb with h2 | h2
      · exfalso
        apply hnd.1
        have : id ∈ t.map Prod.fst := List.mem_map.2 ⟨(id, a), h1, rfl⟩
        rw [← h2]
        exact this
      · exact ih hnd.2 h1 h2

theorem not_mem_keys {l : List (Ident × Nat)} {id : Ident}
    (h : ∀ s, (id, s) ∉ l) : id ∉ l.map Prod.fst := by
  intro hm
  obtain ⟨⟨a, b⟩, hp, he⟩ := List.mem_map.1 hm
  dsimp at he
  subst he
  exact h b hp

theorem storeInv_insert {st st' : VectorStore} {id : Ident} {v : Vec}
    (hinv : StoreInv st) (h : st.insert id v = .ok st') : StoreInv st' := by
  obtain ⟨hkeys, hagree, hdims, hfnd, hfree⟩ := hinv
  obtain ⟨hnone, hlen, hcases⟩ := insert_ok_cases h
  have hnotmem : ∀ s, (id, s) ∉ st.index := lookup_none_not_mem hnone
  rcases hcases with ⟨s, rest, hf, hst⟩ | ⟨hf, hst⟩
  · -- free-list branch
    subst hst
    have hsfree : st.slots[s]? = some none :=
      hfree s (by rw [hf]; exact List.mem_cons_self _ _)
    have hslt : s < st.slots.length := (List.getElem?_eq_some.1 hsfree).1
    have hsrest : s ∉ rest := by
      have := hfnd
      rw [hf, List.nodup_cons] at this
      exact this.1
    have hrestnd : rest.Nodup := by
      have := hfnd
      rw [hf, List.nodup_cons] at this
      exact this.2
    refine ⟨?_, ?_, ?_, hrestnd, ?_⟩
    · dsimp only
      rw [List.map_cons, List.nodup_cons]
      exact ⟨not_mem_keys hnotmem, hkeys⟩
    · intro id2 s2
      dsimp only
      constructor
      · intro hm
        rcases List.mem_cons.1 hm with he | hm2
        · obtain ⟨h1, h2⟩ := Prod.mk.inj he
          subst h1
          subst h2
          exact ⟨_, List.getElem?_set_self hslt, rfl⟩
        · obtain ⟨sl, hsl, hident⟩ := (hagree id2 s2).1 hm2
          have hs2ne : s ≠ s2 := by
            intro hEq
            rw [← hEq, hsfree] at hsl
            simp at hsl
          exact ⟨sl, by rw [List.getElem?_set_ne hs2ne]; exact hsl, hident⟩
      · rintro ⟨sl, hsl, hident⟩
        by_cases hs2 : s2 = s
        · subst hs2
          rw [List.getElem?_set_self hslt] at hsl
          have hsl2 : (some ⟨id, v, st.nextSeq⟩ : Option Slot) = some sl :=
            Option.some.inj hsl
          have hsl3 : (⟨id, v, st.nextSeq⟩ : Slot) = sl := Option.some.inj hsl2
          rw [← hident, ← hsl3]
          exact List.mem_cons_self _ _
        · rw [List.getElem?_set_ne (fun hEq => hs2 hEq.symm)] at hsl
          exact List.mem_cons_of_mem _ ((hagree id2 s2).2 ⟨sl, hsl, hident⟩)
    · intro j sl hsl
      dsimp only at hsl ⊢
      by_cases hj : j = s
      · subst hj
        rw [List.getElem?_set_self hslt] at hsl
        have hsl3 : (⟨id, v, st.nextSeq⟩ : Slot) = sl :=
          Option.some.inj (Option.some.inj hsl)
        rw [← hsl3]
        exact hlen
      · rw [List.getElem?_set_ne (fun hEq => hj hEq.symm)] at hsl
        exact hdims j sl hsl
    · intro t ht
      dsimp only at ht ⊢
      have htne : s ≠ t := fun hEq => hsrest (hEq ▸ ht)
      rw [List.getElem?_set_ne htne]
      exact hfree t (by rw [hf]; exact List.mem_cons_of_mem _ ht)
  · -- growth branch
    subst hst
    have hget : ∀ j : Nat,
        (st.slots ++ some ⟨id, v, st.nextSeq⟩ ::
          List.replicate (growPad st.slots.length) none)[j]? =
        if j < st.slots.length then st.slots[j]?
        else if j = st.slots.length then some (some ⟨id, v, st.nextSeq⟩)
        else (List.replicate (growPad st.slots.length) (none : Option Slot))[j - st.slots.length - 1]? := by
      intro j
      rw [List.getElem?_append]
      by_cases h1 : j < st.slots.length
      · rw [if_pos h1, if_pos h1]
      · rw [if_neg h1, if_neg h1]
        rw [List.getElem?_cons]
        by_cases h2 : j = st.slots.length
        · rw [if_pos h2, if_pos (by rw [h2]; exact Nat.sub_self _)]
        · have h3 : j - st.slots.length ≠ 0 := by
            intro hc
            exact h2 (Nat.le_antisymm (Nat.le_of_sub_eq_zero hc) (Nat.le_of_not_lt h1))
          rw [if_neg h2, if_neg h3]
    refine ⟨?_, ?_, ?_, ?_, ?_⟩
    · dsimp only
      rw [List.map_cons, List.nodup_cons]
      exact ⟨not_mem_keys hnotmem, hkeys⟩
    · intro id2 s2
      dsimp only
      rw [hget s2]
      constructor
      · intro hm
        rcases List.mem_cons.1 hm with he | hm2
        · obtain ⟨h1, h2⟩ := Prod.mk.inj he
          subst h1
          subst h2
          rw [if_neg (Nat.lt_irrefl _), if_pos rfl]
          exact ⟨_, rfl, rfl⟩
        · obtain ⟨sl, hsl, hident⟩ := (hagree id2 s2).1 hm2
          have hlt : s2 < st.slots.length := (List.getElem?_eq_some.1 hsl).1
          rw [if_pos hlt]
          exact ⟨sl, hsl, hident⟩
      · rintro ⟨sl, hsl, hident⟩
        by_cases h1 : s2 < st.slots.length
        · rw [if_pos h1] at hsl
          exact List.mem_cons_of_mem _ ((hagree id2 s2).2 ⟨sl, hsl, hident⟩)
        · rw [if_neg h1] at hsl
          by_cases h2 : s2 = st.slots.length
          · rw [if_pos h2] at hsl
            have hsl3 : (⟨id, v, st.nextSeq⟩ : Slot) = sl :=
              Option.some.inj (Option.some.inj hsl)
            rw [← hident, ← hsl3, h2]
            exact List.mem_cons_self _ _
          · rw [if_neg h2, List.getElem?_replicate] at hsl
            by_cases h3 : s2 - st.slots.length - 1 < growPad st.slots.length
            · rw [if_pos h3] at hsl
              simp at hsl
            · rw [if_neg h3] at hsl
              cases hsl
    · intro j sl hsl
      dsimp only at hsl ⊢
      rw [hget j] at hsl
      by_cases h1 : j < st.slots.length
      · rw [if_pos h1] at hsl
        exact hdims j sl hsl
      · rw [if_neg h1] at hsl
        by_cases h2 : j = st.slots.length
        · rw [if_pos h2] at hsl
          have hsl3 : (⟨id, v, st.nextSeq⟩ : Slot) = sl :=
            Option.some.inj (Option.some.inj hsl)
          rw [← hsl3]
          exact hlen
        · rw [if_neg h2, List.getElem?_replicate] at hsl
          by_cases h3 : j - st.slots.length - 1 < growPad st.slots.length
          · rw [if_pos h3] at hsl
            simp at hsl
          · rw [if_neg h3] at hsl
            cases hsl
    · dsimp only
      exact List.nodup_range' _ _
    · intro t ht
      dsimp only at ht ⊢
      have hrange := List.mem_range'_1.1 ht
      have hgt : st.slots.length < t := hrange.1
      rw [hget t, if_neg (Nat.lt_asymm hgt), if_neg (Nat.ne_of_gt hgt),
        List.getElem?_replicate,
        if_pos (by omega)]

theorem storeInv_remove {st st' : VectorStore} {id : Ident}
    (hinv : StoreInv st) (h : st.remove id = .ok st') : StoreInv st' := by
  obtain ⟨hkeys, hagree, hdims, hfnd, hfree⟩ := hinv
  obtain ⟨s, hlk, hst⟩ := remove_ok_cases h
  subst hst
  have hmem : (id, s) ∈ st.index := lookup_some_mem hlk
  obtain ⟨sl0, hsl0, hid0⟩ := (hagree id s).1 hmem
  have hslt : s < st.slots.length := (List.getElem?_eq_some.1 hsl0).1
  have huniq : ∀ s2, (id, s2) ∈ st.index → s2 = s :=
    fun s2 hm2 => keys_nodup_eq hkeys hm2 hmem
  have hsnotfree : s ∉ st.freeList := by
    intro hc
    rw [hfree s hc] at hsl0
    simp at hsl0
  have hmemf : ∀ (id2 : Ident) (s2 : Nat),
      (id2, s2) ∈ st.index.filter (fun p => decide (p.1 ≠ id)) ↔
        ((id2, s2) ∈ st.index ∧ id2 ≠ id) := by
    intro id2 s2
    rw [List.mem_filter]
    constructor
    · rintro ⟨h1, h2⟩
      exact ⟨h1, of_decide_eq_true h2⟩
    · rintro ⟨h1, h2⟩
      exact ⟨h1, decide_eq_true h2⟩
  refine ⟨?_, ?_, ?_, ?_, ?_⟩
  · dsimp only
    exact ((List.filter_sublist _).map Prod.fst).nodup hkeys
  · intro id2 s2
    dsimp only
    rw [hmemf id2 s2]
    constructor
    · rintro ⟨hm2, hne⟩
      obtain ⟨sl, hsl, hident⟩ := (hagree id2 s2).1 hm2
      have hs2ne : s ≠ s2 := by
        intro hEq
        rw [← hEq, hsl0] at hsl
        have : sl0 = sl := Option.some.inj (Option.some.inj hsl)
        exact hne (by rw [← hident, ← this, hid0])
      exact ⟨sl, by rw [List.getElem?_set_ne hs2ne]; exact hsl, hident⟩
    · rintro ⟨sl, hsl, hident⟩
      by_cases hs2 : s2 = s
      · exfalso
        subst hs2
        rw [List.getElem?_set_self hslt] at hsl
        simp at hsl
      · rw [List.getElem?_set_ne (fun hEq => hs2 hEq.symm)] at hsl
        have hm2 : (id2, s2) ∈ st.index := (hagree id2 s2).2 ⟨sl, hsl, hident⟩
        refine ⟨hm2, fun hEq => hs2 ?_⟩
        subst hEq
        exact huniq s2 hm2
  · intro j sl hsl
    dsimp only at hsl ⊢
    by_cases hj : j = s
    · exfalso
      subst hj
      rw [List.getElem?_set_self hslt] at hsl
      simp at hsl
    · rw [List.getElem?_set_ne (fun hEq => hj hEq.symm)] at hsl
      exact hdims j sl hsl
  · dsimp only
    rw [List.nodup_cons]
    exact ⟨hsnotfree, hfnd⟩
  · intro t ht
    dsimp only at ht ⊢
    rcases List.mem_cons.1 ht with he | ht2
    · subst he
      exact List.getElem?_set_self hslt
    · have htne : s ≠ t := by
        intro hEq
        exact hsnotfree (hEq ▸ ht2)
      rw [List.getElem?_set_ne htne]
      exact hfree t ht2

theorem reachable_storeInv {st : VectorStore} (h : Reachable st) : StoreInv st := by
  induction h with
  | mk dim m cap => exact storeInv_empty dim m cap
  | ins _ h2 ih => exact storeInv_insert ih h2
  | rem _ h2 ih => exact storeInv_remove ih h2

/-- C7: in every store state reachable through the public operations
(construction, insert, remove — query does not mutate state), the
Identifier Index bijection holds: every occupied row slot has exactly
one identifier mapped to it, and every mapped identifier refers to
exactly one occupied row slot. -/
theorem reachable_index_bijection (st : VectorStore) (h : Reachable st) :
    IndexBiject st := by
  obtain ⟨hkeys, hagree, _, _, _⟩ := reachable_storeInv h
  constructor
  · intro j sl hsl
    refine ⟨(hagree sl.ident j).2 ⟨sl, hsl, rfl⟩, ?_⟩
    intro id2 hm
    obtain ⟨sl2, hsl2, hident2⟩ := (hagree id2 j).1 hm
    rw [hsl] at hsl2
    have : sl = sl2 := Option.some.inj (Option.some.inj hsl2)
    rw [← hident2, ← this]
  · intro id s hm
    refine ⟨(hagree id s).1 hm, ?_⟩
    intro s2 hm2
    exact keys_nodup_eq hkeys hm2 hm

/-- Witness for C7 at the concrete reachable store exStore1, built by
one insert into an empty store. -/
theorem reachable_index_bijection_witness : IndexBiject exStore1 :=
  reachable_index_bijection exStore1
    (@Reachable.ins (VectorStore.empty 1 Metric.l2_squared 1) exStore1 5 [2]
      (Reachable.mk 1 Metric.l2_squared 1) (by rfl))

instance (m : Metric) : IsTotal Cand (candLE m) := by
  constructor
  intro a b
  cases m
  · rcases lt_trichotomy a.2.2 b.2.2 with h | h | h
    · exact Or.inl (Or.inl h)
    · rcases Nat.le_total a.2.1 b.2.1 with h2 | h2
      · exact Or.inl (Or.inr ⟨h, h2⟩)
      · exact Or.inr (Or.inr ⟨h.symm, h2⟩)
    · exact Or.inr (Or.inl h)
  · rcases lt_trichotomy b.2.2 a.2.2 with h | h | h
    · exact Or.inl (Or.inl h)
    · rcases Nat.le_total a.2.1 b.2.1 with h2 | h2
      · exact Or.inl (Or.inr ⟨h.symm, h2⟩)
      · exact Or.inr (Or.inr ⟨h, h2⟩)
    · exact Or.inr (Or.inl h)

instance (m : Metric) : IsTrans Cand (candLE m) := by
  constructor
  intro a b c hab hbc
  cases m
  · rcases hab with h1 | ⟨h1, h1s⟩ <;> rcases hbc with h2 | ⟨h2, h2s⟩
    · exact Or.inl (lt_trans h1 h2)
    · exact Or.inl (h2 ▸ h1)
    · exact Or.inl (h1 ▸ h2)
    · exact Or.inr ⟨h1.trans h2, le_trans h1s h2s⟩
  · rcases hab with h1 | ⟨h1, h1s⟩ <;> rcases hbc with h2 | ⟨h2, h2s⟩
    · exact Or.inl (lt_trans h2 h1)
    · exact Or.inl (h2 ▸ h1)
    · exact Or.inl (h1 ▸ h2)
    · exact Or.inr ⟨h1.trans h2, le_trans h1s h2s⟩

theorem better_not_back (m : Metric) {a b : ℚ} (h : m.better a b) :
    ¬ (m.better b a ∨ b = a) := by
  cases m
  · rintro (h2 | h2)
    · exact absurd h (lt_asymm h2)
    · rw [h2] at h
      exact lt_irrefl a h
  · rintro (h2 | h2)
    · exact absurd h (lt_asymm h2)
    · rw [h2] at h
      exact lt_irrefl a h

theorem dot_nil_left (v : Vec) : dot [] v = 0 := rfl

theorem dot_cons (a b : ℚ) (u v : Vec) :
    dot (a :: u) (b :: v) = a * b + dot u v := by
  simp [dot, List.zipWith]

theorem dot_self_nonneg (v : Vec) : 0 ≤ dot v v := by
  induction v with
  | nil => exact le_refl 0
  | cons a t ih =>
    rw [dot_cons]
    have := mul_self_nonneg a
    linarith

theorem sqDist_self (v : Vec) : sqDist v v = 0 := by
  induction v with
  | nil => rfl
  | cons a t ih =>
    have : sqDist (a :: t) (a :: t) = (a - a) ^ 2 + sqDist t t := by
      simp [sqDist, List.zipWith]
    rw [this, ih, sub_self]
    ring

theorem sqDist_nonneg (u v : Vec) : 0 ≤ sqDist u v := by
  induction u generalizing v with
  | nil => cases v <;> exact le_refl 0
  | cons a t ih =>
    cases v with
    | nil => exact le_refl 0
    | cons b s =>
      have : sqDist (a :: t) (b :: s) = (a - b) ^ 2 + sqDist t s := by
        simp [sqDist, List.zipWith]
      rw [this]
      have h1 := sq_nonneg (a - b)
      have h2 := ih s
      linarith

theorem dot_cauchy_schwarz (u v : Vec) : (dot u v) ^ 2 ≤ dot u u * dot v v := by
  induction u generalizing v with
  | nil =>
    have : dot [] v = 0 := rfl
    rw [this, dot_nil_left]
    have := dot_self_nonneg v
    nlinarith
  | cons a t ih =>
    cases v with
    | nil =>
      have h1 : dot (a :: t) [] = 0 := by simp [dot]
      have hb : dot ([] : Vec) [] = (0 : ℚ) := rfl
      rw [h1, hb]
      have ha := dot_self_nonneg (a :: t)
      nlinarith
    | cons b s =>
      rw [dot_cons, dot_cons, dot_cons]
      have hA := dot_self_nonneg t
      have hB := dot_self_nonneg s
      have hS := ih s
      rcases eq_or_lt_of_le hB with hB0 | hBpos
      · have hS0 : dot t s = 0 := by nlinarith [sq_nonneg (dot t s)]
        rw [hS0, ← hB0]
        nlinarith [mul_nonneg hA (mul_self_nonneg b)]
      · nlinarith [sq_nonneg (a * dot s s - b * dot t s),
          mul_nonneg (add_nonneg (mul_self_nonneg b) hB) (sub_nonneg.2 hS), hBpos]

theorem cosSur_self {v : Vec} (h : dot v v ≠ 0) : cosSur v v = 1 := by
  unfold cosSur
  have hpos : 0 < dot v v := lt_of_le_of_ne (dot_self_nonneg v) (Ne.symm h)
  rw [abs_of_pos hpos]
  exact div_self (by positivity)

theorem cosSur_le_one (u v : Vec) : cosSur u v ≤ 1 := by
  unfold cosSur
  rcases eq_or_ne (dot u u * dot v v) 0 with h0 | h0
  · rw [h0, div_zero]
    exact zero_le_one
  · have hu := dot_self_nonneg u
    have hv := dot_self_nonneg v
    have hpos : 0 < dot u u * dot v v :=
      lt_of_le_of_ne (mul_nonneg hu hv) (Ne.symm h0)
    rw [div_le_one hpos]
    have h1 : dot u v * |dot u v| ≤ (dot u v) ^ 2 := by
      rcases le_or_lt 0 (dot u v) with hd | hd
      · rw [abs_of_nonneg hd]
        nlinarith
      · rw [abs_of_neg hd]
        nlinarith
    exact le_trans h1 (dot_cauchy_schwarz u v)

theorem score_self_identity (m : Metric) (v : Vec)
    (h : m = Metric.cosine → dot v v ≠ 0) :
    m.score v v = m.identityScore := by
  cases m
  · exact sqDist_self v
  · exact cosSur_self (h rfl)

theorem identity_strictly_best (m : Metric) (u w : Vec)
    (h : m.score u w ≠ m.identityScore) :
    m.better m.identityScore (m.score u w) := by
  cases m
  · exact lt_of_le_of_ne (sqDist_nonneg u w) (Ne.symm h)
  · exact lt_of_le_of_ne (cosSur_le_one u w) h

theorem filterMap_set_some (x : Slot) :
    ∀ (l : List (Option Slot)) (s : Nat), l[s]? = some none →
    (List.filterMap (fun o => o) (l.set s (some x))).Perm
      (x :: List.filterMap (fun o => o) l) := by
  intro l
  induction l with
  | nil =>
    intro s hs
    simp at hs
  | cons o t ih =>
    intro s hs
    cases s with
    | zero =>
      rw [List.getElem?_cons_zero] at hs
      have ho : o = none := Option.some.inj hs
      subst ho
      simp only [List.set_cons_zero, List.filterMap_cons]
      exact List.Perm.refl _
    | succ n =>
      rw [List.getElem?_cons_succ] at hs
      cases o with
      | none =>
        simp only [List.set_cons_succ, List.filterMap_cons]
        exact ih n hs
      | some y =>
        simp only [List.set_cons_succ, List.filterMap_cons]
        exact ((ih n hs).cons y).trans (List.Perm.swap x y _)

theorem filterMap_replicate_none (n : Nat) :
    List.filterMap (fun o => o) (List.replicate n (none : Option Slot)) = [] := by
  induction n with
  | zero => rfl
  | succ k ih => simp only [List.replicate_succ, List.filterMap_cons, ih]

theorem insert_meta {st st' : VectorStore} {id : Ident} {v : Vec}
    (h : st.insert id v = .ok st') :
    st'.dim = st.dim ∧ st'.metric = st.metric ∧ st'.nextSeq = st.nextSeq + 1 := by
  obtain ⟨_, _, hcases⟩ := insert_ok_cases h
  rcases hcases with ⟨s, rest, _, hst⟩ | ⟨_, hst⟩ <;> subst hst <;> exact ⟨rfl, rfl, rfl⟩

theorem occRows_insert {st st' : VectorStore} {id : Ident} {v : Vec}
    (hinv : StoreInv st) (h : st.insert id v = .ok st') :
    st'.occRows.Perm (⟨id, v, st.nextSeq⟩ :: st.occRows) := by
  obtain ⟨_, _, _, _, hfree⟩ := hinv
  obtain ⟨_, _, hcases⟩ := insert_ok_cases h
  rcases hcases with ⟨s, rest, hf, hst⟩ | ⟨hf, hst⟩
  · subst hst
    unfold VectorStore.occRows
    dsimp only
    exact filterMap_set_some _ st.slots s (hfree s (by rw [hf]; exact List.mem_cons_self _ _))
  · subst hst
    unfold VectorStore.occRows
    dsimp only
    rw [List.filterMap_append]
    simp only [List.filterMap_cons, filterMap_replicate_none]
    exact List.perm_append_singleton _ _

theorem insertionSort_head_of_strict (m : Metric) (l : List Cand) (x : Cand)
    (hx : x ∈ l)
    (hstrict : ∀ y ∈ l, y ≠ x → m.better x.2.2 y.2.2) :
    ∃ t, List.insertionSort (candLE m) l = x :: t := by
  have hs : List.Sorted (candLE m) (List.insertionSort (candLE m) l) :=
    List.sorted_insertionSort _ l
  have hmem : x ∈ List.insertionSort (candLE m) l := (List.mem_insertionSort _).2 hx
  cases he : List.insertionSort (candLE m) l with
  | nil =>
    rw [he] at hmem
    cases hmem
  | cons hd tl =>
    rw [he] at hmem hs
    rcases List.mem_cons.1 hmem with h1 | h1
    · exact ⟨tl, by rw [h1]⟩
    · by_cases hne : hd = x
      · exact ⟨tl, by rw [hne]⟩
      · exfalso
        have hhd : hd ∈ l := (List.mem_insertionSort _).1
          (by rw [he]; exact List.mem_cons_self _ _)
        have hbet := hstrict hd hhd hne
        have hle : candLE m hd x := (List.sorted_cons.1 hs).1 x h1
        rcases hle with h2 | ⟨h2, _⟩
        · exact better_not_back m hbet (Or.inl h2)
        · exact better_not_back m hbet (Or.inr h2)

theorem query_mem_occRows {st : VectorStore} {q : Vec} {k : Int}
    {res : List (Ident × ℚ)} (h : st.query q k = .ok res) {i : Ident} {x : ℚ}
    (hm : (i, x) ∈ res) : ∃ sl ∈ st.occRows, sl.ident = i := by
  unfold VectorStore.query at h
  by_cases h1 : q.length ≠ st.dim
  · rw [if_pos h1] at h
    exact absurd h (by simp)
  · rw [if_neg h1] at h
    by_cases h2 : k ≤ 0
    · rw [if_pos h2] at h
      exact absurd h (by simp)
    · rw [if_neg h2] at h
      have hres := Except.ok.inj h
      rw [← hres] at hm
      obtain ⟨c, hc, hpc⟩ := List.mem_map.1 hm
      have hc2 : c ∈ st.ranked q := List.mem_of_mem_take hc
      have hc3 : c ∈ st.candList q := (List.mem_insertionSort _).1 hc2
      obtain ⟨sl, hsl, hfc⟩ := List.mem_map.1 hc3
      refine ⟨sl, hsl, ?_⟩
      have hc1 : c.1 = i := (Prod.mk.inj hpc).1
      rw [← hc1, ← hfc]

theorem remove_no_ident {st st' : VectorStore} {id : Ident}
    (hinv : StoreInv st) (h : st.remove id = .ok st') :
    ∀ sl ∈ st'.occRows, sl.ident ≠ id := by
  obtain ⟨hkeys, hagree, _, _, _⟩ := hinv
  obtain ⟨s, hlk, hst⟩ := remove_ok_cases h
  subst hst
  intro sl hsl hident
  unfold VectorStore.occRows at hsl
  dsimp only at hsl
  obtain ⟨o, ho, hfo⟩ := List.mem_filterMap.1 hsl
  have ho2 : o = some sl := hfo
  subst ho2
  obtain ⟨j, hj⟩ := List.mem_iff_getElem?.1 ho
  by_cases hjs : j = s
  · subst hjs
    rw [List.getElem?_set, if_pos rfl] at hj
    by_cases hlt : j < st.slots.length
    · rw [if_pos hlt] at hj
      simp at hj
    · rw [if_neg hlt] at hj
      cases hj
  · rw [List.getElem?_set_ne (fun hEq => hjs hEq.symm)] at hj
    have hmem1 : (sl.ident, j) ∈ st.index := (hagree sl.ident j).2 ⟨sl, hj, rfl⟩
    rw [hident] at hmem1
    exact hjs (keys_nodup_eq hkeys hmem1 (lookup_some_mem hlk))

/-- C4: after a successful remove, no subsequent query (any vector, any
k) returns the removed identifier; and remove of an absent or
already-removed identifier fails with UnknownIdentifier, producing no
successor state, so size() is unchanged. -/
theorem remove_semantics (st st' : VectorStore) (id : Ident) (v : Vec) (k : Int)
    (res : List (Ident × ℚ)) (hr : Reachable st) :
    (st.remove id = .ok st' → st'.query v k = .ok res → ∀ x : ℚ, (id, x) ∉ res) ∧
    (st.index.lookup id = none →
      (st.remove id = .error .UnknownIdentifier ∧
        ∀ st2 : VectorStore, st.remove id ≠ .ok st2)) := by
  constructor
  · intro hrem hq x hm
    obtain ⟨sl, hsl, hident⟩ := query_mem_occRows hq hm
    exact remove_no_ident (reachable_storeInv hr) hrem sl hsl hident
  · intro hnone
    have h1 : st.remove id = .error .UnknownIdentifier := by
      unfold VectorStore.remove
      rw [hnone]
    exact ⟨h1, fun st2 hc => by rw [h1] at hc; exact Except.noConfusion hc⟩

/-- Witness for C4: removing identifier 5 from the concrete store
exStore1 and querying leaves no result mentioning 5; removing the absent
identifier 9 fails with UnknownIdentifier. -/
theorem remove_semantics_witness :
    (∀ x : ℚ, (5, x) ∉ ([] : List (Ident × ℚ))) ∧
    (exStore1.remove 9 = .error .UnknownIdentifier ∧
      ∀ st2 : VectorStore, exStore1.remove 9 ≠ .ok st2) :=
  ⟨(remove_semantics exStore1 ⟨1, Metric.l2_squared, [none], [0], [], 1⟩ 5 [4] 1 []
      (@Reachable.ins (VectorStore.empty 1 Metric.l2_squared 1) exStore1 5 [2]
        (Reachable.mk 1 Metric.l2_squared 1) (by rfl))).1 (by rfl) (by rfl),
   (remove_semantics exStore1 exStore1 9 [4] 1 []
      (@Reachable.ins (VectorStore.empty 1 Metric.l2_squared 1) exStore1 5 [2]
        (Reachable.mk 1 Metric.l2_squared 1) (by rfl))).2 (by rfl)⟩

/-- C5: every successful query returns at most k results, equal to the
first k of the candidate list ranked by the configured metric order with
ties broken by ascending row-insertion order (candLE); that ranked list
is sorted under candLE and is a permutation of the candidates of all
occupied rows, and the returned (identifier, score) pairs are weakly
sorted by the metric's score order. -/
theorem query_result_ranked (st : VectorStore) (q : Vec) (k : Int)
    (res : List (Ident × ℚ)) (h : st.query q k = .ok res) :
    res.length ≤ k.toNat ∧
    res = ((st.ranked q).take k.toNat).map (fun c => (c.1, c.2.2)) ∧
    List.Sorted (candLE st.metric) (st.ranked q) ∧
    (st.ranked q).Perm (st.candList q) ∧
    List.Sorted (fun a b : Ident × ℚ => st.metric.better a.2 b.2 ∨ a.2 = b.2) res := by
  unfold VectorStore.query at h
  by_cases h1 : q.length ≠ st.dim
  · rw [if_pos h1] at h
    exact absurd h (by simp)
  · rw [if_neg h1] at h
    by_cases h2 : k ≤ 0
    · rw [if_pos h2] at h
      exact absurd h (by simp)
    · rw [if_neg h2] at h
      have hres := (Except.ok.inj h).symm
      have hsorted : List.Sorted (candLE st.metric) (st.ranked q) :=
        List.sorted_insertionSort _ _
      refine ⟨?_, hres, hsorted, List.perm_insertionSort _ _, ?_⟩
      · rw [hres, List.length_map, List.length_take]
        exact Nat.min_le_left _ _
      · rw [hres]
        refine List.Pairwise.map _ ?_
          (List.Pairwise.sublist (List.take_sublist _ _) hsorted)
        intro a b hab
        rcases hab with hb | ⟨hb, _⟩
        · exact Or.inl hb
        · exact Or.inr hb

/-- Witness for C5 at the concrete store exStore2 with query
[0,0,0,0] and k = 2, returning [(1, 0), (2, 4)]. -/
theorem query_result_ranked_witness :
    ([((1 : Ident), (0 : ℚ)), (2, 4)].length ≤ (2 : Int).toNat) ∧
    [((1 : Ident), (0 : ℚ)), (2, 4)] =
      ((exStore2.ranked [0, 0, 0, 0]).take (2 : Int).toNat).map
        (fun c => (c.1, c.2.2)) ∧
    List.Sorted (candLE exStore2.metric) (exStore2.ranked [0, 0, 0, 0]) ∧
    (exStore2.ranked [0, 0, 0, 0]).Perm (exStore2.candList [0, 0, 0, 0]) ∧
    List.Sorted (fun a b : Ident × ℚ => exStore2.metric.better a.2 b.2 ∨ a.2 = b.2)
      [((1 : Ident), (0 : ℚ)), (2, 4)] :=
  query_result_ranked exStore2 [0, 0, 0, 0] 2 [(1, 0), (2, 4)]
    (by norm_num [VectorStore.query, VectorStore.ranked, VectorStore.candList,
      VectorStore.occRows, exStore2, Metric.score, sqDist, candLE, Metric.better])

/-- C1 (amended): for a reachable store, inserting a valid (identifier,
vector) pair and querying with that exact vector and k = 1 returns that
identifier as the top and only result, with score equal to the metric's
identity value (0 for l2_squared, 1 for cosine), provided no
already-stored row attains the identity score against that vector (for
l2_squared: no other row holds the same vector) and, for cosine, the
vector is nonzero; otherwise the earlier tied row wins the insertion-
order tie-break. -/
theorem insert_query_top (st st' : VectorStore) (id : Ident) (v : Vec)
    (hr : Reachable st)
    (hcos : st.metric = Metric.cosine → dot v v ≠ 0)
    (hothers : ∀ sl ∈ st.occRows, st.metric.score v sl.vec ≠ st.metric.identityScore)
    (hins : st.insert id v = .ok st') :
    st'.query v 1 = .ok [(id, st.metric.identityScore)] := by
  have hinv := reachable_storeInv hr
  obtain ⟨hnone, hlen, _⟩ := insert_ok_cases hins
  obtain ⟨hdim, hmet, _⟩ := insert_meta hins
  have hperm := occRows_insert hinv hins
  have hself : st.metric.score v v = st.metric.identityScore :=
    score_self_identity st.metric v hcos
  have hcperm : (st'.candList v).Perm
      ((id, st.nextSeq, st.metric.score v v) :: st.candList v) := by
    unfold VectorStore.candList
    rw [hmet]
    exact hperm.map _
  have hx : (id, st.nextSeq, st.metric.score v v) ∈ st'.candList v :=
    hcperm.mem_iff.2 (List.mem_cons_self _ _)
  have hstrict : ∀ y ∈ st'.candList v, y ≠ (id, st.nextSeq, st.metric.score v v) →
      st.metric.better (id, st.nextSeq, st.metric.score v v).2.2 y.2.2 := by
    intro y hy hne
    rcases List.mem_cons.1 (hcperm.mem_iff.1 hy) with h1 | h1
    · exact absurd h1 hne
    · obtain ⟨sl, hsl, hfy⟩ := List.mem_map.1 h1
      have hbet := identity_strictly_best st.metric v sl.vec (hothers sl hsl)
      have hy22 : y.2.2 = st.metric.score v sl.vec := by rw [← hfy]
      show st.metric.better (st.metric.score v v) y.2.2
      rw [hy22, hself]
      exact hbet
  obtain ⟨tl, hsort⟩ := insertionSort_head_of_strict st.metric (st'.candList v)
    (id, st.nextSeq, st.metric.score v v) hx hstrict
  unfold VectorStore.query
  rw [if_neg (show ¬ v.length ≠ st'.dim from by rw [hdim]; exact fun hc => hc hlen)]
  rw [if_neg (show ¬ (1 : Int) ≤ 0 by norm_num)]
  unfold VectorStore.ranked
  rw [hmet, hsort]
  have hone : (1 : Int).toNat = 1 := rfl
  rw [hone, List.take_succ_cons, List.take_zero, List.map_cons, List.map_nil]
  rw [hself]

/-- C1 counterexample: identifiers 1 and 2 both hold the vector [0]
under l2_squared; after inserting id 2, the query for [0] with k = 1
returns id 1 (the earlier row, by the insertion-order tie-break) with
distance 0, not id 2 — so the claim fails as stated when another stored
row ties at the identity score.  A second instance: inserting the zero
vector under cosine and querying it returns score 0, not the identity
value 1, because the zero vector has no well-defined cosine with itself. -/
theorem insert_query_top_counterexample :
    (VectorStore.insert ⟨1, Metric.l2_squared, [some ⟨1, [0], 0⟩, none], [1], [(1, 0)], 1⟩
        2 [0] = .ok exStoreDup ∧
      exStoreDup.query [0] 1 = .ok [(1, 0)] ∧ (1 : Ident) ≠ 2) ∧
    ((VectorStore.empty 1 Metric.cosine 1).insert 1 [0] =
        .ok ⟨1, Metric.cosine, [some ⟨1, [0], 0⟩], [], [(1, 0)], 1⟩ ∧
      VectorStore.query ⟨1, Metric.cosine, [some ⟨1, [0], 0⟩], [], [(1, 0)], 1⟩ [0] 1 =
        .ok [(1, 0)] ∧ (0 : ℚ) ≠ Metric.cosine.identityScore) := by
  refine ⟨⟨by rfl, ?_, by decide⟩, ⟨by rfl, ?_, ?_⟩⟩
  · norm_num [VectorStore.query, VectorStore.ranked, VectorStore.candList,
      VectorStore.occRows, exStoreDup, Metric.score, sqDist, candLE, Metric.better]
  · norm_num [VectorStore.query, VectorStore.ranked, VectorStore.candList,
      VectorStore.occRows, Metric.score, cosSur, dot, candLE, Metric.better]
  · norm_num [Metric.identityScore]

/-- Witness for C1: inserting identifier 7 with vector [3] into an empty
one-slot store and querying [3] with k = 1 returns [(7, 0)]. -/
theorem insert_query_top_witness :
    VectorStore.query ⟨1, Metric.l2_squared, [some ⟨7, [3], 0⟩], [], [(7, 0)], 1⟩ [3] 1 =
      .ok [(7, Metric.l2_squared.identityScore)] :=
  insert_query_top (VectorStore.empty 1 Metric.l2_squared 1)
    ⟨1, Metric.l2_squared, [some ⟨7, [3], 0⟩], [], [(7, 0)], 1⟩ 7 [3]
    (Reachable.mk 1 Metric.l2_squared 1)
    (by intro hc; exact absurd hc (by decide))
    (by intro sl hsl; exact absurd hsl (by simp [VectorStore.empty, VectorStore.occRows]))
    (by rfl)
